import Mathlib

/-!
Verification development for the spatial-query core of the OpenMC geometry
code (cell.h) and the ParticleFilter tally filter (filter_particle.cpp).

The repository ships the interface header for the geometry core; the bodies of
CSGCell::contains_simple, CSGCell::contains_complex, CSGCell::distance,
Cell::temperature, Cell::set_temperature and the UniversePartitioner are
declared there but their translation units are not part of the sources, so
those operations are modelled from the specification (each such definition
carries a doc comment starting with "Modelled from the spec:").  The
ParticleFilter operations are translated directly from the shipped source.
-/

namespace OpenMC

/-- Cartesian coordinate (Position in position.h), modelled with exact
rationals; only comparisons on components are needed by this core. -/
abbrev Position := ℚ × ℚ × ℚ

/-- A direction vector, used only to break ties for points lying exactly on a
surface. -/
abbrev Direction := ℚ × ℚ × ℚ

/-- Operator token OP_LEFT_PAREN from cell.h: int32 max. -/
def OP_LEFT_PAREN : Int := 2147483647

/-- Operator token OP_RIGHT_PAREN from cell.h. -/
def OP_RIGHT_PAREN : Int := 2147483646

/-- Operator token OP_COMPLEMENT from cell.h. -/
def OP_COMPLEMENT : Int := 2147483645

/-- Operator token OP_INTERSECTION from cell.h. -/
def OP_INTERSECTION : Int := 2147483644

/-- Operator token OP_UNION from cell.h. -/
def OP_UNION : Int := 2147483643

/-- A token is an operator when it falls in the reserved band at the top of
the int32 range; surface references satisfy token < OP_UNION. -/
def isOperator (t : Int) : Bool := decide (OP_UNION ≤ t)

/-- Modelled from the spec: the truth value of one signed surface-reference
token.  The external Surface primitive supplies the numeric sense of each
surface at the query point; the token is satisfied when that sense matches the
sign of the reference.  The on_surface argument takes precedence over the
numeric sense evaluation: a token equal to on_surface is satisfied outright
and a token equal to its negation is falsified outright. -/
def token_sense (sense : Nat → Position → Direction → Bool)
    (r : Position) (u : Direction) (on_surface : Int) (t : Int) : Bool :=
  if t = on_surface then true
  else if t = -on_surface then false
  else sense t.natAbs r u == decide (0 < t)

/-- Modelled from the spec: CSGCell::contains_simple.  For a simple region
(only intersections of half-spaces), containment is the AND of all half-space
senses in the RPN, evaluated left to right with short-circuit on the first
failing half-space; operator tokens are skipped. -/
def contains_simple (sense : Nat → Position → Direction → Bool)
    (rpn : List Int) (r : Position) (u : Direction) (on_surface : Int) : Bool :=
  rpn.all fun t => if isOperator t then true else token_sense sense r u on_surface t

/-- Modelled from the spec: one step of the boolean stack machine of
CSGCell::contains_complex.  A surface token pushes its sense; COMPLEMENT
negates the top; INTERSECTION and UNION pop two operands and push the AND
resp. OR.  An operator finding too few operands, or a parenthesis token
(never present in well-formed RPN), is a stack-machine failure. -/
def stack_step (sense : Nat → Position → Direction → Bool)
    (r : Position) (u : Direction) (on_surface : Int)
    (stack : List Bool) (t : Int) : Option (List Bool) :=
  if isOperator t then
    if t = OP_COMPLEMENT then
      match stack with
      | b :: rest => some ((!b) :: rest)
      | [] => none
    else if t = OP_INTERSECTION then
      match stack with
      | a :: b :: rest => some ((a && b) :: rest)
      | _ => none
    else if t = OP_UNION then
      match stack with
      | a :: b :: rest => some ((a || b) :: rest)
      | _ => none
    else none
  else
    some (token_sense sense r u on_surface t :: stack)

/-- Modelled from the spec: the iterative RPN stack-machine loop, consuming
the token list left to right and threading the boolean stack. -/
def run_rpn (sense : Nat → Position → Direction → Bool)
    (r : Position) (u : Direction) (on_surface : Int) :
    List Int → List Bool → Option (List Bool)
  | [], stack => some stack
  | t :: rest, stack =>
    match stack_step sense r u on_surface stack t with
    | some stack2 => run_rpn sense r u on_surface rest stack2
    | none => none

/-- Modelled from the spec: CSGCell::contains_complex.  Run the stack machine
over the RPN starting from an empty stack; the final stack must contain
exactly one boolean, the containment result. -/
def contains_complex (sense : Nat → Position → Direction → Bool)
    (rpn : List Int) (r : Position) (u : Direction) (on_surface : Int) : Bool :=
  match run_rpn sense r u on_surface rpn [] with
  | some [b] => b
  | _ => false

/-- A well-formed infix region expression, as authored: signed surface
references combined with complement, intersection and union (parentheses of
the authored token stream correspond to the tree structure). -/
inductive RegionExpr : Type
  | halfspace : Int → RegionExpr
  | compl : RegionExpr → RegionExpr
  | inter : RegionExpr → RegionExpr → RegionExpr
  | union : RegionExpr → RegionExpr → RegionExpr

/-- Validity of an authored region expression: every surface reference is a
nonzero signed index below the reserved operator-token band. -/
def RegionExpr.valid : RegionExpr → Bool
  | .halfspace s => decide (s ≠ 0) && decide (s < OP_UNION) && decide (-OP_UNION < s)
  | .compl e => e.valid
  | .inter a b => a.valid && b.valid
  | .union a b => a.valid && b.valid

/-- Direct recursive evaluation of the infix region expression under standard
boolean-algebra semantics. -/
def eval_region (sense : Nat → Position → Direction → Bool)
    (r : Position) (u : Direction) (on_surface : Int) : RegionExpr → Bool
  | .halfspace s => token_sense sense r u on_surface s
  | .compl e => !eval_region sense r u on_surface e
  | .inter a b => eval_region sense r u on_surface a && eval_region sense r u on_surface b
  | .union a b => eval_region sense r u on_surface a || eval_region sense r u on_surface b

/-- Modelled from the spec: the RPN form derived once at load time from the
infix expression (the shunting-yard translation is specified by its result,
postfix order of the well-formed infix expression). -/
def to_rpn : RegionExpr → List Int
  | .halfspace s => [s]
  | .compl e => to_rpn e ++ [OP_COMPLEMENT]
  | .inter a b => to_rpn a ++ to_rpn b ++ [OP_INTERSECTION]
  | .union a b => to_rpn a ++ to_rpn b ++ [OP_UNION]

/-- Modelled from the spec: the simple flag of a cell, true iff the region
contains only intersections of half-spaces (no complement operator, no union
operator). -/
def is_simple (rpn : List Int) : Bool :=
  rpn.all fun t => !(t == OP_COMPLEMENT) && !(t == OP_UNION)

/-- The Cell data members from cell.h (geometry-relevant fields; the
NeighborList cache is out of scope of the claims treated here). -/
structure Cell where
  id_ : Int
  name_ : String
  type_ : Int
  universe_ : Int
  fill_ : Int
  n_instances_ : Int
  material_ : List Int
  sqrtkT_ : List ℚ
  region_ : List Int
  rpn_ : List Int
  simple_ : Bool
  translation_ : ℚ × ℚ × ℚ
  rotation_ : List ℚ
  offset_ : List Int
deriving DecidableEq

/-- Modelled from the spec: CSGCell::contains dispatches on the simple flag,
using the short-circuit evaluator for simple cells and the RPN stack machine
otherwise. -/
def csg_contains (sense : Nat → Position → Direction → Bool)
    (c : Cell) (r : Position) (u : Direction) (on_surface : Int) : Bool :=
  if c.simple_ then contains_simple sense c.rpn_ r u on_surface
  else contains_complex sense c.rpn_ r u on_surface

/-- The surface table with the numeric sense of one surface flipped, all
other surface senses held fixed. -/
def flip_sense (sense : Nat → Position → Direction → Bool) (n : Nat) :
    Nat → Position → Direction → Bool :=
  fun m r u => if m = n then !(sense m r u) else sense m r u

/-- Modelled from the spec: whether crossing surface n at the query point is
consistent with leaving the region, i.e. whether flipping the sense of that
surface (holding all other senses fixed) flips the evaluated containment
result. -/
def flips_containment (sense : Nat → Position → Direction → Bool)
    (c : Cell) (r : Position) (u : Direction) (os : Int) (n : Nat) : Bool :=
  csg_contains (flip_sense sense n) c r u os != csg_contains sense c r u os

/-- Modelled from the spec: a surface token is a candidate for the boundary
distance when it is not an operator, its own ray-intersection distance is
positive, and crossing it would flip the containment result. -/
def qualifies (sense : Nat → Position → Direction → Bool)
    (surfDist : Nat → Position → Direction → ℚ)
    (c : Cell) (r : Position) (u : Direction) (os : Int) (t : Int) : Bool :=
  !(isOperator t) && decide (0 < surfDist t.natAbs r u) &&
    flips_containment sense c r u os t.natAbs

/-- One step of the running-minimum scan over candidate tokens: a qualifying
token replaces the best seen so far when its value is strictly smaller. -/
def min_step (q : Int → Bool) (v : Int → ℚ)
    (best : Option (ℚ × Int)) (t : Int) : Option (ℚ × Int) :=
  if q t then
    match best with
    | none => some (v t, t)
    | some (d, s2) => if v t < d then some (v t, t) else some (d, s2)
  else best

/-- Running-minimum scan over a token list, starting from no candidate. -/
def min_fold (q : Int → Bool) (v : Int → ℚ) (l : List Int) : Option (ℚ × Int) :=
  l.foldl (min_step q v) none

/-- Modelled from the spec: CSGCell::distance.  Over every surface referenced
in the RPN, take the minimum positive ray-intersection distance among those
surfaces whose crossing would flip the containment result, paired with the
signed surface reference; none encodes the effectively-infinite distance
reported when no referenced surface bounds the cell in the traversal
direction. -/
def cell_distance (sense : Nat → Position → Direction → Bool)
    (surfDist : Nat → Position → Direction → ℚ)
    (c : Cell) (r : Position) (u : Direction) (os : Int) : Option (ℚ × Int) :=
  min_fold (qualifies sense surfDist c r u os) (fun t => surfDist t.natAbs r u) c.rpn_

/-- The Universe data members from cell.h: identity and the indices of the
cells it directly contains. -/
structure Universe where
  id_ : Int
  cells_ : List Int
deriving DecidableEq

/-- Modelled from the spec: UniversePartitioner::get_cells bin lookup.  The
partitioning z-planes are held sorted; the bin index of a query point is the
number of planes strictly below its z coordinate, with a point exactly on a
plane assigned to the positive side exactly when the direction points toward
positive z (the direction breaks the tie). -/
def bin_of (surfs : List ℚ) (r : Position) (u : Direction) : Nat :=
  surfs.countP fun q => decide (q < r.2.2) || (decide (q = r.2.2) && decide (0 < u.2.2))

/-- Membership of a z coordinate in partition bin i, following the cell.h
documentation of partitions_: bin 0 is the negative side of the first plane,
bin n the positive side of the last, and bin i the band sandwiched between
planes i-1 and i. -/
def in_partition (surfs : List ℚ) (i : Nat) (z : ℚ) : Prop :=
  (i = 0 ∨ ∃ q, surfs.get? (i - 1) = some q ∧ q ≤ z) ∧
  (i = surfs.length ∨ ∃ q, surfs.get? i = some q ∧ z ≤ q)

/-- Modelled from the spec: the candidate cell list precomputed for one bin -
a member cell is assigned to a bin when some query point falling in that bin
can satisfy the cell region (conservative over-inclusion). -/
def partition_cells_set (sense : Nat → Position → Direction → Bool)
    (cellmap : Int → Cell) (univ : Universe) (surfs : List ℚ) (i : Nat) : Set Int :=
  {cidx | cidx ∈ univ.cells_ ∧
    ∃ r u, in_partition surfs i r.2.2 ∧ csg_contains sense (cellmap cidx) r u 0 = true}

/-- Modelled from the spec: UniversePartitioner::get_cells - locate the bin
of the query point among the sorted partitioning planes and return the precomputed
precomputed candidate cell list. -/
def get_cells (sense : Nat → Position → Direction → Bool)
    (cellmap : Int → Cell) (univ : Universe) (surfs : List ℚ)
    (r : Position) (u : Direction) : Set Int :=
  partition_cells_set sense cellmap univ surfs (bin_of surfs r u)

/-- Modelled from the spec: Cell::temperature.  Returns the stored value for
the given instance; instance -1 is a convenience meaning the first instance;
an out-of-range instance index is a precondition violation (none), not a
silently returned value. -/
def Cell.temperature (c : Cell) (inst : Int) : Option ℚ :=
  if inst = -1 then c.sqrtkT_.get? 0
  else if 0 ≤ inst ∧ inst.toNat < c.sqrtkT_.length then c.sqrtkT_.get? inst.toNat
  else none

/-- Modelled from the spec: Cell::set_temperature.  Instance -1 broadcasts
the value to all instances; otherwise exactly the stored
value is updated. -/
def Cell.set_temperature (c : Cell) (T : ℚ) (inst : Int) : Cell :=
  if inst = -1 then { c with sqrtkT_ := c.sqrtkT_.map fun _ => T }
  else { c with sqrtkT_ := c.sqrtkT_.set inst.toNat T }

/-- Particle::Type values.  The C++ enum class has an integer underlying
type and the filter code casts raw integers to and from it
(static_cast in from_xml and to_statepoint), so the type is modelled by its
integer value (neutron 0, photon 1, electron 2, positron 3). -/
abbrev ParticleType := Int

/-- A FilterMatch accumulator: matched bin indices and their weights. -/
structure FilterMatch where
  bins_ : List Int
  weights_ : List ℚ
deriving DecidableEq

/-- The ParticleFilter state touched by filter_particle.cpp: the stored
particle types and the bin count. -/
structure ParticleFilter where
  particles_ : List ParticleType
  n_bins_ : Nat
deriving DecidableEq

/-- ParticleFilter::set_particles from filter_particle.cpp: clear the stored
particle list, push each element of the span in order, and set n_bins_ to the
size of the resulting list. -/
def ParticleFilter.set_particles (f : ParticleFilter)
    (particles : List ParticleType) : ParticleFilter :=
  let stored := particles.foldl (fun acc p => acc ++ [p]) ([] : List ParticleType)
  { f with particles_ := stored, n_bins_ := stored.length }

/-- ParticleFilter::from_xml from filter_particle.cpp: read the integer bins
array and store each integer b as the particle type b - 1. -/
def ParticleFilter.from_xml (f : ParticleFilter) (bins : List Int) : ParticleFilter :=
  f.set_particles (bins.map fun p => p - 1)

/-- ParticleFilter::to_statepoint from filter_particle.cpp: write back each
stored particle type t as the integer t + 1. -/
def ParticleFilter.to_statepoint (f : ParticleFilter) : List Int :=
  f.particles_.map fun p => p + 1

/-- ParticleFilter::get_all_bins from filter_particle.cpp: scan the stored
types in index order and, for every index whose stored type equals the
querying particle type, append the index to the match bins with weight 1. -/
def ParticleFilter.get_all_bins (f : ParticleFilter) (ptype : ParticleType)
    (m : FilterMatch) : FilterMatch :=
  f.particles_.enum.foldl
    (fun acc x =>
      if x.2 = ptype then
        { bins_ := acc.bins_ ++ [(x.1 : Int)], weights_ := acc.weights_ ++ [1] }
      else acc) m

theorem isOperator_complement : isOperator OP_COMPLEMENT = true := by decide

theorem isOperator_intersection : isOperator OP_INTERSECTION = true := by decide

theorem isOperator_union : isOperator OP_UNION = true := by decide

theorem inter_ne_compl : OP_INTERSECTION ≠ OP_COMPLEMENT := by decide

theorem union_ne_compl : OP_UNION ≠ OP_COMPLEMENT := by decide

theorem union_ne_inter : OP_UNION ≠ OP_INTERSECTION := by decide

theorem stack_step_surface (sense : Nat → Position → Direction → Bool)
    (r : Position) (u : Direction) (os t : Int) (stack : List Bool)
    (h : isOperator t = false) :
    stack_step sense r u os stack t = some (token_sense sense r u os t :: stack) := by
  simp [stack_step, h]

theorem stack_step_complement (sense : Nat → Position → Direction → Bool)
    (r : Position) (u : Direction) (os : Int) (b : Bool) (stack : List Bool) :
    stack_step sense r u os (b :: stack) OP_COMPLEMENT = some ((!b) :: stack) := by
  simp [stack_step, isOperator_complement]

theorem stack_step_intersection (sense : Nat → Position → Direction → Bool)
    (r : Position) (u : Direction) (os : Int) (a b : Bool) (stack : List Bool) :
    stack_step sense r u os (a :: b :: stack) OP_INTERSECTION = some ((a && b) :: stack) := by
  simp [stack_step, isOperator_intersection, inter_ne_compl]

theorem stack_step_union (sense : Nat → Position → Direction → Bool)
    (r : Position) (u : Direction) (os : Int) (a b : Bool) (stack : List Bool) :
    stack_step sense r u os (a :: b :: stack) OP_UNION = some ((a || b) :: stack) := by
  simp [stack_step, isOperator_union, union_ne_compl, union_ne_inter]

theorem run_rpn_append (sense : Nat → Position → Direction → Bool)
    (r : Position) (u : Direction) (os : Int) (a b : List Int) :
    ∀ stack, run_rpn sense r u os (a ++ b) stack =
      match run_rpn sense r u os a stack with
      | some st2 => run_rpn sense r u os b st2
      | none => none := by
  induction a with
  | nil => intro stack; simp [run_rpn]
  | cons t rest ih =>
    intro stack
    simp only [List.cons_append, run_rpn]
    cases stack_step sense r u os stack t with
    | none => rfl
    | some st2 => exact ih st2

theorem run_rpn_to_rpn (sense : Nat → Position → Direction → Bool)
    (r : Position) (u : Direction) (os : Int) (e : RegionExpr) :
    e.valid = true → ∀ stack, run_rpn sense r u os (to_rpn e) stack =
      some (eval_region sense r u os e :: stack) := by
  induction e with
  | halfspace s =>
    intro hv stack
    simp only [RegionExpr.valid, Bool.and_eq_true, decide_eq_true_eq] at hv
    have hop : isOperator s = false := by
      simp only [isOperator, decide_eq_false_iff_not, not_le]
      exact hv.1.2
    simp [to_rpn, run_rpn, stack_step_surface sense r u os s stack hop, eval_region]
  | compl e ih =>
    intro hv stack
    rw [to_rpn, run_rpn_append, ih hv stack]
    simp [run_rpn, stack_step_complement, eval_region]
  | inter a b iha ihb =>
    intro hv stack
    simp only [RegionExpr.valid, Bool.and_eq_true] at hv
    rw [to_rpn, run_rpn_append, run_rpn_append]
    simp only [iha hv.1, ihb hv.2]
    simp [run_rpn, stack_step_intersection, eval_region, Bool.and_comm]
  | union a b iha ihb =>
    intro hv stack
    simp only [RegionExpr.valid, Bool.and_eq_true] at hv
    rw [to_rpn, run_rpn_append, run_rpn_append]
    simp only [iha hv.1, ihb hv.2]
    simp [run_rpn, stack_step_union, eval_region, Bool.or_comm]

theorem contains_complex_to_rpn (sense : Nat → Position → Direction → Bool)
    (r : Position) (u : Direction) (os : Int) (e : RegionExpr)
    (hv : e.valid = true) :
    contains_complex sense (to_rpn e) r u os = eval_region sense r u os e := by
  rw [contains_complex, run_rpn_to_rpn sense r u os e hv []]

theorem contains_simple_to_rpn (sense : Nat → Position → Direction → Bool)
    (r : Position) (u : Direction) (os : Int) (e : RegionExpr) :
    e.valid = true → is_simple (to_rpn e) = true →
      contains_simple sense (to_rpn e) r u os = eval_region sense r u os e := by
  induction e with
  | halfspace s =>
    intro hv _
    simp only [RegionExpr.valid, Bool.and_eq_true, decide_eq_true_eq] at hv
    have hop : isOperator s = false := by
      simp only [isOperator, decide_eq_false_iff_not, not_le]
      exact hv.1.2
    simp [to_rpn, contains_simple, hop, eval_region]
  | compl e ih =>
    intro _ hs
    exfalso
    simp [to_rpn, is_simple, List.all_append] at hs
  | inter a b iha ihb =>
    intro hv hs
    simp only [RegionExpr.valid, Bool.and_eq_true] at hv
    simp only [to_rpn, is_simple, List.all_append, Bool.and_eq_true] at hs
    have ha := iha hv.1 hs.1.1
    have hb := ihb hv.2 hs.1.2
    simp only [to_rpn, contains_simple, List.all_append] at ha hb ⊢
    rw [ha, hb, eval_region]
    simp [isOperator_intersection]
  | union a b iha ihb =>
    intro _ hs
    exfalso
    simp [to_rpn, is_simple, List.all_append] at hs

/-- Claim C1: for every region expression that qualifies as simple (simple
flag true) and for every input (surface senses at the query point and
direction, together with on_surface), the simple short-circuit containment
evaluator (contains_simple) and the general RPN stack-machine evaluator
(contains_complex) return the same boolean result. -/
theorem claim_C1_simple_agrees_complex (sense : Nat → Position → Direction → Bool)
    (r : Position) (u : Direction) (os : Int) (e : RegionExpr)
    (hv : e.valid = true) (hs : is_simple (to_rpn e) = true) :
    contains_simple sense (to_rpn e) r u os = contains_complex sense (to_rpn e) r u os := by
  rw [contains_simple_to_rpn sense r u os e hv hs, contains_complex_to_rpn sense r u os e hv]

/-- Witness for C1 at the concrete simple region 1 ∩ ¬2 (tokens [1, -2]). -/
theorem claim_C1_witness :
    (RegionExpr.inter (.halfspace 1) (.halfspace (-2))).valid = true ∧
    is_simple (to_rpn (RegionExpr.inter (.halfspace 1) (.halfspace (-2)))) = true ∧
    contains_simple (fun n _ _ => decide (n = 1))
        (to_rpn (RegionExpr.inter (.halfspace 1) (.halfspace (-2))))
        ((0 : ℚ), (0 : ℚ), (0 : ℚ)) ((0 : ℚ), (0 : ℚ), (1 : ℚ)) 0 =
      contains_complex (fun n _ _ => decide (n = 1))
        (to_rpn (RegionExpr.inter (.halfspace 1) (.halfspace (-2))))
        ((0 : ℚ), (0 : ℚ), (0 : ℚ)) ((0 : ℚ), (0 : ℚ), (1 : ℚ)) 0 :=
  ⟨by decide, by decide,
    claim_C1_simple_agrees_complex _ _ _ _ _ (by decide) (by decide)⟩

/-- Claim C2: for every well-formed infix region expression and every
assignment of surface senses, evaluating the derived RPN form with the
boolean stack machine yields exactly the same containment result as direct
recursive evaluation of the original infix expression under standard
boolean-algebra semantics. -/
theorem claim_C2_rpn_lossless (sense : Nat → Position → Direction → Bool)
    (r : Position) (u : Direction) (os : Int) (e : RegionExpr)
    (hv : e.valid = true) :
    run_rpn sense r u os (to_rpn e) [] = some [eval_region sense r u os e] ∧
    contains_complex sense (to_rpn e) r u os = eval_region sense r u os e :=
  ⟨run_rpn_to_rpn sense r u os e hv [], contains_complex_to_rpn sense r u os e hv⟩

/-- Witness for C2 at the concrete region (¬1) ∪ (2 ∩ ¬3). -/
theorem claim_C2_witness :
    (RegionExpr.union (.compl (.halfspace 1))
      (.inter (.halfspace 2) (.halfspace (-3)))).valid = true ∧
    contains_complex (fun n _ _ => decide (n % 2 = 0))
        (to_rpn (RegionExpr.union (.compl (.halfspace 1))
          (.inter (.halfspace 2) (.halfspace (-3)))))
        ((0 : ℚ), (0 : ℚ), (0 : ℚ)) ((0 : ℚ), (0 : ℚ), (1 : ℚ)) 0 =
      eval_region (fun n _ _ => decide (n % 2 = 0))
        ((0 : ℚ), (0 : ℚ), (0 : ℚ)) ((0 : ℚ), (0 : ℚ), (1 : ℚ)) 0
        (RegionExpr.union (.compl (.halfspace 1))
          (.inter (.halfspace 2) (.halfspace (-3)))) :=
  ⟨by decide, (claim_C2_rpn_lossless _ _ _ _ _ (by decide)).2⟩

theorem token_sense_congr (sense1 sense2 : Nat → Position → Direction → Bool)
    (r : Position) (u : Direction) (s : Int)
    (hagree : ∀ n, n ≠ s.natAbs → sense1 n = sense2 n) :
    token_sense sense1 r u s = token_sense sense2 r u s := by
  funext t
  unfold token_sense
  by_cases h1 : t = s
  · simp [h1]
  · by_cases h2 : t = -s
    · simp [h1, h2]
    · have hne : t.natAbs ≠ s.natAbs := by
        intro habs
        rcases Int.natAbs_eq_natAbs_iff.mp habs with h | h
        · exact h1 h
        · exact h2 h
      simp [h1, h2, hagree t.natAbs hne]

theorem run_rpn_congr (sense1 sense2 : Nat → Position → Direction → Bool)
    (r : Position) (u : Direction) (s : Int)
    (htok : token_sense sense1 r u s = token_sense sense2 r u s) :
    ∀ (l : List Int) (stack : List Bool),
      run_rpn sense1 r u s l stack = run_rpn sense2 r u s l stack := by
  have hstep : ∀ (stack : List Bool) (t : Int),
      stack_step sense1 r u s stack t = stack_step sense2 r u s stack t := by
    intro stack t
    unfold stack_step
    rw [htok]
  intro l
  induction l with
  | nil => intro stack; rfl
  | cons t rest ih =>
    intro stack
    simp only [run_rpn, hstep stack t]
    cases stack_step sense2 r u s stack t with
    | none => rfl
    | some st2 => exact ih st2

/-- Claim C3: for every containment query with on_surface nonzero, the sense
used for the surface named by on_surface comes from the sign of on_surface
itself, never from a numeric sense evaluation of the point against that
surface: a token equal to on_surface is satisfied and a token equal to its
negation is falsified, and the containment result is independent of the
numeric sense assigned to that surface (two surface tables agreeing away from
it give the same result). -/
theorem claim_C3_on_surface_precedence (c : Cell) (r : Position) (u : Direction)
    (s : Int) (sense1 sense2 : Nat → Position → Direction → Bool)
    (hs : s ≠ 0)
    (hagree : ∀ n, n ≠ s.natAbs → sense1 n = sense2 n) :
    token_sense sense1 r u s s = true ∧
    token_sense sense1 r u s (-s) = false ∧
    csg_contains sense1 c r u s = csg_contains sense2 c r u s := by
  have htok := token_sense_congr sense1 sense2 r u s hagree
  refine ⟨by simp [token_sense], ?_, ?_⟩
  · have hneq : -s ≠ s := by omega
    simp [token_sense, hneq]
  · unfold csg_contains contains_simple contains_complex
    rw [htok, run_rpn_congr sense1 sense2 r u s htok]

/-- Witness for C3: a complex two-surface cell, on_surface = 2, and two
surface tables that differ only in the numeric sense of surface 2. -/
theorem claim_C3_witness :
    ((2 : Int) ≠ 0) ∧
    csg_contains (fun n _ _ => decide (n = 2))
        ⟨1, "", 1, 0, 0, 1, [0], [0], [1, 2, OP_UNION], [1, 2, OP_UNION], false,
          (0, 0, 0), [], []⟩
        ((0 : ℚ), (0 : ℚ), (0 : ℚ)) ((0 : ℚ), (0 : ℚ), (1 : ℚ)) 2 =
      csg_contains (fun _ _ _ => false)
        ⟨1, "", 1, 0, 0, 1, [0], [0], [1, 2, OP_UNION], [1, 2, OP_UNION], false,
          (0, 0, 0), [], []⟩
        ((0 : ℚ), (0 : ℚ), (0 : ℚ)) ((0 : ℚ), (0 : ℚ), (1 : ℚ)) 2 :=
  ⟨by decide,
    (claim_C3_on_surface_precedence _ _ _ _ _ _ (by decide)
      (fun n hn => by
        funext r u
        have h2 : n ≠ 2 := by omega
        simp [h2])).2.2⟩

theorem min_fold_go_none (q : Int → Bool) (v : Int → ℚ) :
    ∀ (l : List Int) (acc : Option (ℚ × Int)),
      l.foldl (min_step q v) acc = none → acc = none ∧ ∀ t ∈ l, q t = false := by
  intro l
  induction l with
  | nil =>
    intro acc h
    exact ⟨h, by simp⟩
  | cons t rest ih =>
    intro acc h
    rw [List.foldl_cons] at h
    obtain ⟨hstep, hrest⟩ := ih _ h
    cases hq : q t with
    | true =>
      exfalso
      simp only [min_step, hq] at hstep
      cases acc with
      | none => simp at hstep
      | some p =>
        obtain ⟨da, sa⟩ := p
        by_cases hlt : v t < da <;> simp [hlt] at hstep
    | false =>
      have hacc : acc = none := by
        simpa [min_step, hq] using hstep
      refine ⟨hacc, ?_⟩
      intro x hx
      rcases List.mem_cons.mp hx with h1 | h1
      · rw [h1]; exact hq
      · exact hrest x h1

theorem min_fold_go_skip (q : Int → Bool) (v : Int → ℚ) :
    ∀ (l : List Int) (acc : Option (ℚ × Int)),
      (∀ t ∈ l, q t = false) → l.foldl (min_step q v) acc = acc := by
  intro l
  induction l with
  | nil => intro acc _; rfl
  | cons t rest ih =>
    intro acc hall
    rw [List.foldl_cons]
    have hstep : min_step q v acc t = acc := by
      simp [min_step, hall t (List.mem_cons_self t rest)]
    rw [hstep]
    exact ih acc fun x hx => hall x (List.mem_cons_of_mem t hx)

theorem min_fold_go_some (q : Int → Bool) (v : Int → ℚ) :
    ∀ (l : List Int) (acc : Option (ℚ × Int)) (d : ℚ) (s : Int),
      l.foldl (min_step q v) acc = some (d, s) →
      (acc = some (d, s) ∨ (s ∈ l ∧ q s = true ∧ d = v s)) ∧
      (∀ t ∈ l, q t = true → d ≤ v t) ∧
      (∀ d0 s0, acc = some (d0, s0) → d ≤ d0) := by
  intro l
  induction l with
  | nil =>
    intro acc d s h
    simp only [List.foldl_nil] at h
    refine ⟨Or.inl h, by simp, ?_⟩
    intro d0 s0 h0
    rw [h, Option.some_inj, Prod.mk.injEq] at h0
    exact le_of_eq h0.1
  | cons t rest ih =>
    intro acc d s h
    rw [List.foldl_cons] at h
    obtain ⟨horig, hmin, hacc⟩ := ih _ d s h
    cases hq : q t with
    | false =>
      have hstep : min_step q v acc t = acc := by simp [min_step, hq]
      rw [hstep] at horig hacc
      refine ⟨horig.imp_right fun hm => ⟨List.mem_cons_of_mem t hm.1, hm.2⟩, ?_, hacc⟩
      intro x hx hqx
      rcases List.mem_cons.mp hx with h1 | h1
      · rw [h1, hq] at hqx
        exact Bool.noConfusion hqx
      · exact hmin x h1 hqx
    | true =>
      cases acc with
      | none =>
        have hstep : min_step q v none t = some (v t, t) := by simp [min_step, hq]
        rw [hstep] at horig hacc
        have hdt : d ≤ v t := hacc (v t) t rfl
        refine ⟨?_, ?_, ?_⟩
        · rcases horig with h1 | h1
          · rw [Option.some_inj, Prod.mk.injEq] at h1
            obtain ⟨hd2, hs2⟩ := h1
            subst hd2
            subst hs2
            exact Or.inr ⟨List.mem_cons_self t rest, hq, rfl⟩
          · exact Or.inr ⟨List.mem_cons_of_mem t h1.1, h1.2⟩
        · intro x hx hqx
          rcases List.mem_cons.mp hx with h1 | h1
          · rw [h1]; exact hdt
          · exact hmin x h1 hqx
        · intro d0 s0 h0
          exact Option.noConfusion h0
      | some p =>
        obtain ⟨da, sa⟩ := p
        by_cases hlt : v t < da
        · have hstep : min_step q v (some (da, sa)) t = some (v t, t) := by
            simp [min_step, hq, hlt]
          rw [hstep] at horig hacc
          have hdt : d ≤ v t := hacc (v t) t rfl
          refine ⟨?_, ?_, ?_⟩
          · rcases horig with h1 | h1
            · rw [Option.some_inj, Prod.mk.injEq] at h1
              obtain ⟨hd2, hs2⟩ := h1
              subst hd2
              subst hs2
              exact Or.inr ⟨List.mem_cons_self t rest, hq, rfl⟩
            · exact Or.inr ⟨List.mem_cons_of_mem t h1.1, h1.2⟩
          · intro x hx hqx
            rcases List.mem_cons.mp hx with h1 | h1
            · rw [h1]; exact hdt
            · exact hmin x h1 hqx
          · intro d0 s0 h0
            rw [Option.some_inj, Prod.mk.injEq] at h0
            exact le_of_lt (lt_of_le_of_lt hdt (h0.1 ▸ hlt))
        · have hstep : min_step q v (some (da, sa)) t = some (da, sa) := by
            simp [min_step, hq, hlt]
          rw [hstep] at horig hacc
          have hda : d ≤ da := hacc da sa rfl
          refine ⟨?_, ?_, ?_⟩
          · rcases horig with h1 | h1
            · exact Or.inl h1
            · exact Or.inr ⟨List.mem_cons_of_mem t h1.1, h1.2⟩
          · intro x hx hqx
            rcases List.mem_cons.mp hx with h1 | h1
            · rw [h1]
              exact le_trans hda (le_of_not_lt hlt)
            · exact hmin x h1 hqx
          · intro d0 s0 h0
            rw [Option.some_inj, Prod.mk.injEq] at h0
            exact h0.1 ▸ hda

/-- Claim C5: cell_distance returns the minimum positive ray-intersection
distance among those surfaces referenced in the region expression whose
crossing would flip the evaluated containment result (holding all other
surface senses fixed), paired with the signed reference of that surface; when no
referenced surface bounds the cell in the traversal direction, it reports
no intersection (the effectively-infinite distance, encoded none). -/
theorem claim_C5_distance_min (sense : Nat → Position → Direction → Bool)
    (surfDist : Nat → Position → Direction → ℚ)
    (c : Cell) (r : Position) (u : Direction) (os : Int) :
    (∀ d sr, cell_distance sense surfDist c r u os = some (d, sr) →
      sr ∈ c.rpn_ ∧ qualifies sense surfDist c r u os sr = true ∧
      d = surfDist sr.natAbs r u ∧
      ∀ t ∈ c.rpn_, qualifies sense surfDist c r u os t = true →
        d ≤ surfDist t.natAbs r u) ∧
    (cell_distance sense surfDist c r u os = none →
      ∀ t ∈ c.rpn_, qualifies sense surfDist c r u os t = false) ∧
    ((∀ t ∈ c.rpn_, qualifies sense surfDist c r u os t = false) →
      cell_distance sense surfDist c r u os = none) := by
  refine ⟨?_, ?_, ?_⟩
  · intro d sr h
    obtain ⟨horig, hmin, _⟩ :=
      min_fold_go_some (qualifies sense surfDist c r u os)
        (fun t => surfDist t.natAbs r u) c.rpn_ none d sr h
    rcases horig with h1 | h1
    · exact Option.noConfusion h1
    · exact ⟨h1.1, h1.2.1, h1.2.2, hmin⟩
  · intro h
    exact (min_fold_go_none _ _ c.rpn_ none h).2
  · intro h
    exact min_fold_go_skip _ _ c.rpn_ none h

/-- Witness for C5: a one-surface simple cell, all senses true, surface
distance 5; the boundary is surface 1 at distance 5. -/
theorem claim_C5_witness :
    cell_distance (fun _ _ _ => true) (fun _ _ _ => (5 : ℚ))
        ⟨1, "", 1, 0, 0, 1, [0], [0], [1], [1], true, (0, 0, 0), [], []⟩
        ((0 : ℚ), (0 : ℚ), (0 : ℚ)) ((0 : ℚ), (0 : ℚ), (1 : ℚ)) 0 = some (5, 1) ∧
    qualifies (fun _ _ _ => true) (fun _ _ _ => (5 : ℚ))
        ⟨1, "", 1, 0, 0, 1, [0], [0], [1], [1], true, (0, 0, 0), [], []⟩
        ((0 : ℚ), (0 : ℚ), (0 : ℚ)) ((0 : ℚ), (0 : ℚ), (1 : ℚ)) 0 1 = true :=
  ⟨by decide,
    ((claim_C5_distance_min _ _ _ _ _ _).1 5 1 (by decide)).2.1⟩

theorem countP_prefix_mem (p : ℚ → Bool)
    (hdc : ∀ a b : ℚ, a ≤ b → p b = true → p a = true) :
    ∀ (l : List ℚ), l.Sorted (· ≤ ·) →
      (∀ j, j < l.countP p → ∀ x, l.get? j = some x → p x = true) ∧
      (∀ j, l.countP p ≤ j → ∀ x, l.get? j = some x → p x = false) := by
  intro l
  induction l with
  | nil =>
    intro _
    constructor
    · intro j _ x hx; simp at hx
    · intro j _ x hx; simp at hx
  | cons a l ih =>
    intro hsort
    rw [List.sorted_cons] at hsort
    obtain ⟨ha, hsl⟩ := hsort
    obtain ⟨ih1, ih2⟩ := ih hsl
    cases hpa : p a with
    | true =>
      rw [List.countP_cons_of_pos _ _ (by simp [hpa])]
      constructor
      · intro j hj x hx
        cases j with
        | zero =>
          rw [List.get?_cons_zero, Option.some_inj] at hx
          exact hx ▸ hpa
        | succ j2 =>
          rw [List.get?_cons_succ] at hx
          exact ih1 j2 (by omega) x hx
      · intro j hj x hx
        cases j with
        | zero => omega
        | succ j2 =>
          rw [List.get?_cons_succ] at hx
          exact ih2 j2 (by omega) x hx
    | false =>
      have hall : ∀ x ∈ l, p x = false := by
        intro x hx
        cases hpx : p x with
        | false => rfl
        | true => exact absurd (hdc a x (ha x hx) hpx) (by simp [hpa])
      have hcnt : l.countP p = 0 := by
        rw [List.countP_eq_zero]
        intro x hx
        simp [hall x hx]
      rw [List.countP_cons_of_neg _ _ (by simp [hpa]), hcnt]
      constructor
      · intro j hj; omega
      · intro j _ x hx
        cases j with
        | zero =>
          rw [List.get?_cons_zero, Option.some_inj] at hx
          exact hx ▸ hpa
        | succ j2 =>
          rw [List.get?_cons_succ] at hx
          exact hall x (List.get?_mem hx)

theorem bin_pred_dc (z uz : ℚ) : ∀ a b : ℚ, a ≤ b →
    (decide (b < z) || (decide (b = z) && decide (0 < uz))) = true →
    (decide (a < z) || (decide (a = z) && decide (0 < uz))) = true := by
  intro a b hab h
  simp only [Bool.or_eq_true, decide_eq_true_eq, Bool.and_eq_true] at h ⊢
  rcases h with h | h
  · left; exact lt_of_le_of_lt hab h
  · rcases eq_or_lt_of_le hab with h2 | h2
    · right; exact ⟨h2.trans h.1, h.2⟩
    · left; exact h2.trans_le (le_of_eq h.1)

theorem in_partition_bin_of (surfs : List ℚ) (hs : surfs.Sorted (· ≤ ·))
    (r : Position) (u : Direction) :
    in_partition surfs (bin_of surfs r u) r.2.2 := by
  obtain ⟨h1, h2⟩ :=
    countP_prefix_mem _ (bin_pred_dc r.2.2 u.2.2) surfs hs
  have hle : bin_of surfs r u ≤ surfs.length := by
    unfold bin_of
    exact List.countP_le_length _
  constructor
  · cases hi : bin_of surfs r u with
    | zero => exact Or.inl rfl
    | succ k =>
      refine Or.inr ?_
      have hklen : k < surfs.length := by omega
      refine ⟨surfs.get ⟨k, hklen⟩, by simp [List.get?_eq_get hklen], ?_⟩
      have hpk := h1 k (by rw [bin_of] at hi; omega) (surfs.get ⟨k, hklen⟩)
        (List.get?_eq_get hklen)
      simp only [Bool.or_eq_true, decide_eq_true_eq, Bool.and_eq_true] at hpk
      rcases hpk with hpk | hpk
      · exact le_of_lt hpk
      · exact le_of_eq hpk.1
  · rcases eq_or_lt_of_le hle with heq | hlt
    · exact Or.inl heq
    · refine Or.inr ⟨surfs.get ⟨bin_of surfs r u, hlt⟩,
        List.get?_eq_get hlt, ?_⟩
      have hpk := h2 (bin_of surfs r u) (by rw [bin_of]) (surfs.get ⟨bin_of surfs r u, hlt⟩)
        (List.get?_eq_get hlt)
      simp only [Bool.or_eq_false_iff, decide_eq_false_iff_not, not_lt,
        Bool.and_eq_false_iff] at hpk
      exact hpk.1

/-- Claim C4: for every point and direction, and every cell index in the
universe, if the cell contains the point (as decided by Cell::contains) then
the index is a member of the candidate list returned by
UniversePartitioner::get_cells - the candidate list is a superset of the set
of cells actually containing the point. -/
theorem claim_C4_partitioner_superset (sense : Nat → Position → Direction → Bool)
    (cellmap : Int → Cell) (univ : Universe) (surfs : List ℚ)
    (r : Position) (u : Direction) (cidx : Int)
    (hsort : surfs.Sorted (· ≤ ·))
    (hmem : cidx ∈ univ.cells_)
    (hcont : csg_contains sense (cellmap cidx) r u 0 = true) :
    cidx ∈ get_cells sense cellmap univ surfs r u :=
  ⟨hmem, r, u, in_partition_bin_of surfs hsort r u, hcont⟩

/-- Witness for C4: a universe of one simple cell and one partitioning plane
at z = 0; the cell contains the query point and indeed lies in the bin
candidate list. -/
theorem claim_C4_witness :
    csg_contains (fun _ _ _ => true)
        ⟨1, "", 1, 0, 0, 1, [0], [0], [1], [1], true, (0, 0, 0), [], []⟩
        ((0 : ℚ), (0 : ℚ), (-1 : ℚ)) ((0 : ℚ), (0 : ℚ), (1 : ℚ)) 0 = true ∧
    (7 : Int) ∈ get_cells (fun _ _ _ => true)
        (fun _ => ⟨1, "", 1, 0, 0, 1, [0], [0], [1], [1], true, (0, 0, 0), [], []⟩)
        ⟨0, [7]⟩ [(0 : ℚ)]
        ((0 : ℚ), (0 : ℚ), (-1 : ℚ)) ((0 : ℚ), (0 : ℚ), (1 : ℚ)) :=
  ⟨by decide,
    claim_C4_partitioner_superset _ _ _ _ _ _ _
      (by simp) (by decide) (by decide)⟩

/-- Claim C6: Cell::temperature with instance -1 returns the value stored for
the first instance; with a nonnegative in-range instance it returns the value
stored for that instance; for a multiply-instanced cell an out-of-range
instance index fails (precondition violation, encoded none), never a silently
returned value. -/
theorem claim_C6_temperature (c : Cell) (n : Int) :
    (Cell.temperature c (-1) = c.sqrtkT_.get? 0) ∧
    (0 ≤ n → n.toNat < c.sqrtkT_.length →
      Cell.temperature c n = c.sqrtkT_.get? n.toNat ∧
      ∃ T, Cell.temperature c n = some T) ∧
    (1 < c.sqrtkT_.length → 0 ≤ n → c.sqrtkT_.length ≤ n.toNat →
      Cell.temperature c n = none) := by
  refine ⟨by simp [Cell.temperature], ?_, ?_⟩
  · intro h0 hr
    have hne : n ≠ -1 := by omega
    have heq : Cell.temperature c n = c.sqrtkT_.get? n.toNat := by
      simp [Cell.temperature, hne, h0, hr]
    refine ⟨heq, c.sqrtkT_.get ⟨n.toNat, hr⟩, ?_⟩
    rw [heq, List.get?_eq_get hr]
  · intro _ h0 hout
    have hne : n ≠ -1 := by omega
    have hnr : ¬(0 ≤ n ∧ n.toNat < c.sqrtkT_.length) := by
      intro hcon
      omega
    simp [Cell.temperature, hne, hnr]

/-- Witness for C6: a two-instance cell with stored values [3, 4]; instance 1
reads back the stored value 4, and instance 5 is rejected. -/
theorem claim_C6_witness :
    (0 ≤ (1 : Int)) ∧ ((1 : Int).toNat < ([3, 4] : List ℚ).length) ∧
    Cell.temperature ⟨1, "", 1, 0, 0, 2, [0, 0], [3, 4], [1], [1], true,
        (0, 0, 0), [], []⟩ 1 =
      ([3, 4] : List ℚ).get? (1 : Int).toNat :=
  ⟨by decide, by decide,
    ((claim_C6_temperature _ 1).2.1 (by decide) (by decide)).1⟩

/-- Claim C7: Cell::set_temperature with instance -1 sets the stored value of
every instance to T; with a nonnegative in-range instance it updates exactly
that instance, the stored values of all other instances are unchanged, and in
both cases every other cell field is unchanged. -/
theorem claim_C7_set_temperature (c : Cell) (T : ℚ) (n : Int)
    (h0 : 0 ≤ n) (hr : n.toNat < c.sqrtkT_.length) :
    (∀ i, i < c.sqrtkT_.length →
      (Cell.set_temperature c T (-1)).sqrtkT_.get? i = some T) ∧
    ((Cell.set_temperature c T n).sqrtkT_.get? n.toNat = some T) ∧
    (∀ i, i ≠ n.toNat →
      (Cell.set_temperature c T n).sqrtkT_.get? i = c.sqrtkT_.get? i) ∧
    (Cell.set_temperature c T (-1) =
      { c with sqrtkT_ := (Cell.set_temperature c T (-1)).sqrtkT_ }) ∧
    (Cell.set_temperature c T n =
      { c with sqrtkT_ := (Cell.set_temperature c T n).sqrtkT_ }) := by
  have hne : n ≠ -1 := by omega
  have hbr : (Cell.set_temperature c T (-1)).sqrtkT_ = c.sqrtkT_.map fun _ => T := by
    simp [Cell.set_temperature]
  have hone : (Cell.set_temperature c T n).sqrtkT_ = c.sqrtkT_.set n.toNat T := by
    simp [Cell.set_temperature, hne]
  refine ⟨?_, ?_, ?_, ?_, ?_⟩
  · intro i hi
    rw [hbr, List.get?_map, List.get?_eq_get hi]
    rfl
  · rw [hone, List.get?_set_eq, List.get?_eq_get hr]
    rfl
  · intro i hi
    rw [hone]
    exact List.get?_set_ne _ _ fun h => hi h.symm
  · simp [Cell.set_temperature]
  · simp [Cell.set_temperature, hne]

/-- Witness for C7: a three-instance cell with stored values [1, 2, 3];
setting instance 1 to 7 stores 7 at index 1. -/
theorem claim_C7_witness :
    (0 ≤ (1 : Int)) ∧ ((1 : Int).toNat < ([1, 2, 3] : List ℚ).length) ∧
    (Cell.set_temperature ⟨1, "", 1, 0, 0, 3, [0, 0, 0], [1, 2, 3], [1], [1],
        true, (0, 0, 0), [], []⟩ 7 1).sqrtkT_.get? (1 : Int).toNat = some 7 :=
  ⟨by decide, by decide,
    (claim_C7_set_temperature _ 7 1 (by decide) (by decide)).2.1⟩

theorem foldl_push_eq (l : List Int) : ∀ acc : List Int,
    l.foldl (fun acc2 p => acc2 ++ [p]) acc = acc ++ l := by
  induction l with
  | nil => intro acc; simp
  | cons p rest ih =>
    intro acc
    rw [List.foldl_cons, ih]
    simp

theorem set_particles_particles (f : ParticleFilter) (ps : List ParticleType) :
    (f.set_particles ps).particles_ = ps := by
  simp [ParticleFilter.set_particles, foldl_push_eq]

theorem set_particles_n_bins (f : ParticleFilter) (ps : List ParticleType) :
    (f.set_particles ps).n_bins_ = ps.length := by
  simp [ParticleFilter.set_particles, foldl_push_eq]

/-- Claim C10: set_particles replaces the stored particle list with exactly
the elements of the span in order, discarding previous contents, and sets n_bins_
to the length of the span; hence the invariant n_bins_ = particles_.size holds and
repeated calls with the same span are idempotent. -/
theorem claim_C10_set_particles (f : ParticleFilter) (ps : List ParticleType) :
    (f.set_particles ps).particles_ = ps ∧
    (f.set_particles ps).n_bins_ = ps.length ∧
    (f.set_particles ps).n_bins_ = (f.set_particles ps).particles_.length ∧
    (f.set_particles ps).set_particles ps = f.set_particles ps := by
  have hall : ∀ g : ParticleFilter, g.set_particles ps = ⟨ps, ps.length⟩ := by
    intro g
    simp [ParticleFilter.set_particles, foldl_push_eq]
  refine ⟨set_particles_particles f ps, set_particles_n_bins f ps, ?_, ?_⟩
  · rw [set_particles_particles, set_particles_n_bins]
  · rw [hall, hall]

/-- Claim C8: ParticleFilter round-trips its bins through serialization - for
every integer bins array, from_xml stores each integer b as particle type
b - 1, to_statepoint writes back each stored type t as t + 1, and hence the
integer list written by to_statepoint after from_xml equals the integer list
that was read. -/
theorem claim_C8_bins_roundtrip (f : ParticleFilter) (bins : List Int) :
    (f.from_xml bins).particles_ = bins.map (fun b => b - 1) ∧
    (f.from_xml bins).to_statepoint = bins := by
  have h1 : (f.from_xml bins).particles_ = bins.map fun b => b - 1 :=
    set_particles_particles f _
  refine ⟨h1, ?_⟩
  rw [ParticleFilter.to_statepoint, h1, List.map_map]
  have hcomp : ((fun p => p + 1) ∘ fun b => b - 1 : Int → Int) = id := by
    funext b
    simp
  rw [hcomp, List.map_id]

theorem get_all_bins_go (ptype : ParticleType) :
    ∀ (xs : List (Nat × ParticleType)) (m : FilterMatch),
      xs.foldl
        (fun acc x =>
          if x.2 = ptype then
            { bins_ := acc.bins_ ++ [(x.1 : Int)], weights_ := acc.weights_ ++ [1] }
          else acc) m =
      ⟨m.bins_ ++ (xs.filter fun x => decide (x.2 = ptype)).map fun x => (x.1 : Int),
       m.weights_ ++
         List.replicate (xs.filter fun x => decide (x.2 = ptype)).length 1⟩ := by
  intro xs
  induction xs with
  | nil => intro m; simp
  | cons x rest ih =>
    intro m
    rw [List.foldl_cons]
    by_cases hx : x.2 = ptype
    · rw [if_pos hx, ih]
      simp [List.filter_cons, hx, List.replicate_succ]
    · rw [if_neg hx, ih]
      simp [List.filter_cons, hx]

/-- Claim C9: get_all_bins appends to the match exactly the indices i (in
increasing order) at which the stored type equals the particle type, each
paired with weight 1, and nothing else; if no stored type matches, the match
is left unchanged. -/
theorem claim_C9_get_all_bins (f : ParticleFilter) (ptype : ParticleType)
    (m : FilterMatch) :
    (f.get_all_bins ptype m).bins_ =
      m.bins_ ++ (f.particles_.enum.filter fun x => decide (x.2 = ptype)).map
        (fun x => (x.1 : Int)) ∧
    (f.get_all_bins ptype m).weights_ =
      m.weights_ ++ List.replicate
        (f.particles_.enum.filter fun x => decide (x.2 = ptype)).length 1 ∧
    List.Pairwise (· < ·)
      ((f.particles_.enum.filter fun x => decide (x.2 = ptype)).map
        fun x => (x.1 : Int)) ∧
    ((∀ p ∈ f.particles_, p ≠ ptype) → f.get_all_bins ptype m = m) := by
  have hgo := get_all_bins_go ptype f.particles_.enum m
  refine ⟨?_, ?_, ?_, ?_⟩
  · rw [ParticleFilter.get_all_bins, hgo]
  · rw [ParticleFilter.get_all_bins, hgo]
  · have h1 : List.Pairwise (· < ·) (f.particles_.enum.map Prod.fst) := by
      rw [List.enum_map_fst]
      exact List.pairwise_lt_range _
    have h2 : List.Pairwise (fun a b : Nat × ParticleType => a.1 < b.1)
        f.particles_.enum := List.pairwise_map.mp h1
    have hsub : List.Sublist (f.particles_.enum.filter fun x => decide (x.2 = ptype))
        f.particles_.enum := List.filter_sublist _
    have h3 := h2.sublist hsub
    exact List.pairwise_map.mpr (h3.imp fun h => Int.ofNat_lt.mpr h)
  · intro hnone
    have hfil : (f.particles_.enum.filter fun x => decide (x.2 = ptype)) = [] := by
      rw [List.filter_eq_nil]
      rintro ⟨i, p⟩ hx
      have hp : p ∈ f.particles_ := List.snd_mem_of_mem_enum hx
      simp only [decide_eq_true_eq]
      exact hnone p hp
    rw [ParticleFilter.get_all_bins, hgo, hfil]
    simp

/-- Witness for C9: a filter storing types [1, 2] queried with type 0 has no
matching stored type and leaves the match unchanged. -/
theorem claim_C9_witness :
    ParticleFilter.get_all_bins ⟨[1, 2], 2⟩ 0 ⟨[], []⟩ = ⟨[], []⟩ :=
  (claim_C9_get_all_bins ⟨[1, 2], 2⟩ 0 ⟨[], []⟩).2.2.2 (by decide)

end OpenMC
